import Mathlib

/-!
Verification development for the gyat version-control engine.

The definitions below are a shallow embedding of the Rust sources:
byte streams are `List Nat` (each element a byte value), machine words are
`Nat` reduced modulo `2 ^ 32` where overflow matters, filesystem maps are
association lists, and fallible operations return `Option` or `Except`.
Each definition carries a comment naming the Rust function it embeds.
-/

set_option maxRecDepth 100000

namespace Gyat

/-! ## SHA-1 (model of the external `sha1` crate, RFC 3174) -/

/-- Width of a 32-bit machine word: all word-level arithmetic is reduced
modulo this constant. -/
def m32 : Nat := 4294967296

/-- Rotate a 32-bit word left by `n` bits. -/
def rotl (n x : Nat) : Nat := ((x <<< n) % m32) ||| (x >>> (32 - n))

/-- Round constants of SHA-1. -/
def sha1K (i : Nat) : Nat :=
  if i < 20 then 0x5A827999
  else if i < 40 then 0x6ED9EBA1
  else if i < 60 then 0x8F1BBCDC
  else 0xCA62C1D6

/-- Round functions of SHA-1. -/
def sha1F (i b c d : Nat) : Nat :=
  if i < 20 then (b &&& c) ||| ((b ^^^ 4294967295) &&& d)
  else if i < 40 then b ^^^ c ^^^ d
  else if i < 60 then (b &&& c) ||| (b &&& d) ||| (c &&& d)
  else b ^^^ c ^^^ d

/-- Big-endian byte decomposition of a number into `k` bytes. -/
def toBytesBE : Nat → Nat → List Nat
  | 0, _ => []
  | k + 1, v => toBytesBE k (v / 256) ++ [v % 256]

/-- Group a byte stream into big-endian 32-bit words (complete groups of 4). -/
def bytesToWords : List Nat → List Nat
  | a :: b :: c :: d :: rest => (((a * 256 + b) * 256 + c) * 256 + d) :: bytesToWords rest
  | _ => []

/-- SHA-1 message padding: append `0x80`, zero bytes up to 56 mod 64, then the
bit length as 8 big-endian bytes. -/
def sha1Pad (msg : List Nat) : List Nat :=
  msg ++ [128] ++ List.replicate ((64 + 56 - ((msg.length + 1) % 64)) % 64) 0
    ++ toBytesBE 8 (8 * msg.length)

/-- Split a word list into blocks of 16 words (fuel-based structural
recursion; the fuel is the list length, which always suffices). -/
def chunks16Go : Nat → List Nat → List (List Nat)
  | 0, _ => []
  | _, [] => []
  | f + 1, a :: t => (a :: t).take 16 :: chunks16Go f ((a :: t).drop 16)

/-- Split a word list into blocks of 16 words. -/
def chunks16 (l : List Nat) : List (List Nat) := chunks16Go l.length l

/-- Message-schedule extension: `rev` holds the words produced so far in
reverse order; `count` more words are appended. -/
def extendWords : List Nat → Nat → List Nat
  | rev, 0 => rev
  | rev, n + 1 =>
    extendWords
      (rotl 1 ((rev.getD 2 0) ^^^ (rev.getD 7 0) ^^^ (rev.getD 13 0) ^^^ (rev.getD 15 0)) :: rev)
      n

/-- Expand a 16-word block to the 80-word SHA-1 schedule. -/
def sha1Schedule (ws : List Nat) : List Nat :=
  (extendWords ws.reverse 64).reverse

/-- Run the 80 SHA-1 rounds over the schedule. -/
def sha1Rounds : Nat → List Nat → Nat × Nat × Nat × Nat × Nat → Nat × Nat × Nat × Nat × Nat
  | _, [], st => st
  | i, w :: ws, (a, b, c, d, e) =>
    sha1Rounds (i + 1) ws
      ((rotl 5 a + sha1F i b c d + e + sha1K i + w) % m32, a, rotl 30 b, c, d)

/-- Compress one 16-word block into the running hash state. -/
def sha1Block (h : Nat × Nat × Nat × Nat × Nat) (block : List Nat) : Nat × Nat × Nat × Nat × Nat :=
  match h, sha1Rounds 0 (sha1Schedule block) h with
  | (h0, h1, h2, h3, h4), (a, b, c, d, e) =>
    ((h0 + a) % m32, (h1 + b) % m32, (h2 + c) % m32, (h3 + d) % m32, (h4 + e) % m32)

/-- SHA-1 digest of a byte stream, as the 20-byte big-endian list.
This models the external `sha1` crate used by `src/hash.rs`. -/
def sha1 (msg : List Nat) : List Nat :=
  match (chunks16 (bytesToWords (sha1Pad msg))).foldl sha1Block
      (0x67452301, 0xEFCDAB89, 0x98BADCFE, 0x10325476, 0xC3D2E1F0) with
  | (a, b, c, d, e) =>
    toBytesBE 4 a ++ toBytesBE 4 b ++ toBytesBE 4 c ++ toBytesBE 4 d ++ toBytesBE 4 e

/-! ## Blob content (src/objects.rs and src/hash.rs)

Both `objects::format_blob_content` and `hash::digest_file` read the source
file through a 1024-byte buffer that is zero-filled before every read and then
consumed whole (`encoder.write_all(&buf)` and `Update::chain(hasher, &buf[..])`
use the full buffer, not the bytes actually read).  The byte stream they
process is therefore the file content with every 1024-byte chunk zero-padded
to full length.  `padChunks1024` is that stream. -/

/-- Byte stream fed to the zlib encoder by `objects::format_blob_content` and
to the hasher by `hash::digest_file`: the content, each final partial
1024-byte chunk padded with zero bytes. -/
def padChunks1024Go : Nat → List Nat → List Nat
  | 0, _ => []
  | _, [] => []
  | f + 1, a :: t =>
    ((a :: t).take 1024 ++ List.replicate (1024 - ((a :: t).take 1024).length) 0)
      ++ padChunks1024Go f ((a :: t).drop 1024)

/-- Byte stream produced by the chunked reads (fuel wrapper). -/
def padChunks1024 (l : List Nat) : List Nat := padChunks1024Go l.length l

/-- Model of `hash::digest_file`: SHA-1 over the zero-padded chunk stream
(the Rust code chains the whole 1024-byte buffer into the hasher). -/
def digest_file (content : List Nat) : List Nat :=
  sha1 (padChunks1024 content)

/-- Model of `objects::format_blob_content` at the level of the bytes the
zlib encoder receives.  zlib compression is lossless, so a stored blob is
represented here by the byte stream the decoder will later yield, namely the
zero-padded chunk stream. -/
def format_blob_content (content : List Nat) : List Nat :=
  padChunks1024 content

/-- Trailing trim performed by `objects::read_blob` after decompression:
keep bytes up to and including the last nonzero byte
(`rposition(|b| *b != 0).unwrap_or(content.len())`, then `take(pos + 1)`). -/
def trimTrailingZeros (content : List Nat) : List Nat :=
  let lastNonzero :=
    match (content.reverse.findIdx? (fun b => b ≠ 0)) with
    | some j => content.length - 1 - j
    | none => content.length
  content.take (lastNonzero + 1)

/-- Model of `objects::read_blob` applied to a stored blob (represented by its
decompressed byte stream): decompress, then trim trailing zero bytes. -/
def read_blob (stored : List Nat) : List Nat :=
  trimTrailingZeros stored

/-! ## Tree objects (src/objects.rs `format_tree_content`,
src/dirtree.rs `Tree::to_object_file_recursive`) -/

/-- Kind tag of a stored file object: blob (file) or tree (directory).
Mirrors `objects::FType`. -/
inductive FType where
  | blob
  | tree
deriving DecidableEq, Repr

/-- Lowercase hex digit as a byte, mirroring `hex::encode`. -/
def hexDigit (n : Nat) : Nat := if n < 10 then 48 + n else 87 + n

/-- Lowercase hex encoding of a byte list, as bytes.  Mirrors
`hash::to_string` (hex::encode). -/
def hexBytes (h : List Nat) : List Nat :=
  (h.map fun b => [hexDigit (b / 16), hexDigit (b % 16)]).flatten

/-- Byte encoding of a component name.  Rust manipulates names as `OsString`
byte strings; names in this development are ASCII, for which the character
codes are the bytes. -/
def strBytes (s : String) : List Nat := s.data.map Char.toNat

/-- Kind keyword bytes used in a tree-object line. -/
def ftypeBytes : FType → List Nat
  | .blob => strBytes "blob"
  | .tree => strBytes "tree"

/-- One line of a tree object: kind, tab, hex hash, tab, name, newline.
This is the format produced both by `objects::format_tree_content` and by the
inline `format!` in `Tree::to_object_file_recursive`. -/
def formatTreeLine (k : FType) (hash : List Nat) (name : String) : List Nat :=
  ftypeBytes k ++ [9] ++ hexBytes hash ++ [9] ++ strBytes name ++ [10]

/-- Model of `objects::format_tree_content`: concatenation of the child
lines, one per (kind, hash, name) triple in the given order. -/
def format_tree_content (children : List (FType × List Nat × String)) : List Nat :=
  (children.map fun c => formatTreeLine c.1 c.2.1 c.2.2).flatten

/-- Hash of a tree object given its child triples, as computed by
`Tree::to_object_file_recursive` (`hash::get_sha1_bytes` of the encoded
content). -/
def nodeHash (children : List (FType × List Nat × String)) : List Nat :=
  sha1 (format_tree_content children)

/-- Logical directory tree: a leaf is a tracked file with its content, a node
is a directory listing its children in the order the serializer visits them
(the Rust code iterates a `HashMap`, whose order is arbitrary; the order is
therefore an explicit part of this model). -/
inductive DTree where
  | leaf (content : List Nat)
  | node (children : List (String × DTree))
deriving Repr

/-- Kind under which a child is recorded by `Tree::to_object_file_recursive`:
blob when the child node is a leaf, tree otherwise. -/
def DTree.kind : DTree → FType
  | .leaf _ => .blob
  | .node _ => .tree

/-- Recursive serialization of a `DTree`, mirroring
`Tree::to_object_file_recursive`: a leaf is hashed with `digest_file`, an
internal node hashes the concatenated child lines.  Structural fuel makes the
function kernel-computable; any fuel at least the tree depth gives the real
value. -/
def serializeFuel : Nat → DTree → List Nat
  | 0, _ => []
  | _ + 1, .leaf c => digest_file c
  | f + 1, .node cs =>
    nodeHash (cs.map fun nc => (nc.2.kind, serializeFuel f nc.2, nc.1))

/-- Child triples of a node as assembled by the serializer with the given
fuel for the recursive calls. -/
def childTriples (f : Nat) (cs : List (String × DTree)) : List (FType × List Nat × String) :=
  cs.map fun nc => (nc.2.kind, serializeFuel f nc.2, nc.1)

/-- Tree hash of a directory node from its children, with the given fuel. -/
def serializeNode (f : Nat) (cs : List (String × DTree)) : List Nat :=
  nodeHash (childTriples f cs)

/-! ## Checkout delta (src/cli/fallback.rs `compare_trees`) -/

/-- Association-list lookup, the model of `HashMap::get`. -/
def alookup {α β : Type} [DecidableEq α] : List (α × β) → α → Option β
  | [], _ => none
  | (a, b) :: t, k => if a = k then some b else alookup t k

/-- Remove the entry with the given key, the model of `HashMap::remove`. -/
def aerase {α β : Type} [DecidableEq α] : List (α × β) → α → List (α × β)
  | [], _ => []
  | (a, b) :: t, k => if a = k then t else (a, b) :: aerase t k

/-- Delta computed by `fallback::compare_trees`.  Mirrors `fallback::Changes`. -/
structure Changes where
  to_add : List (String × List Nat)
  to_modify : List (String × List Nat)
  to_delete : List String
deriving DecidableEq, Repr

/-- Model of `fallback::compare_trees`: iterate the target mapping pushing
additions (path absent from head) and modifications (present with a different
hash), then iterate the head mapping pushing deletions (path absent from the
target). -/
def compare_trees (head_blobs commit_blobs : List (String × List Nat)) : Changes :=
  { to_add := commit_blobs.filter fun pc => (alookup head_blobs pc.1).isNone
    to_modify := commit_blobs.filter fun pc =>
      match alookup head_blobs pc.1 with
      | some h => decide (h ≠ pc.2)
      | none => false
    to_delete := (head_blobs.filter fun ph => (alookup commit_blobs ph.1).isNone).map Prod.fst }

/-! ## Arena directory tree (src/dirtree.rs)

Nodes are stored in one growable sequence; parent and child links are
indices into it.  The child map of a node is a `HashMap` in Rust; it is
modeled as an association list in insertion order.  The free pool is a
`BinaryHeap<Reverse<usize>>` (a min-heap); it is modeled as a list kept in
ascending order whose head is the popped minimum.  The on-disk existence and
repository-root checks at the top of `Tree::add_path` are filesystem I/O and
appear here as an explicit `onDisk` argument: `false` reproduces the early
`return false`, `true` the checked path. -/

/-- Model of `dirtree::TreeNode`. -/
structure TreeNode where
  children : List (String × Nat)
  filename : String
  parent : Option Nat
deriving DecidableEq, Repr

/-- Fresh node, mirroring `TreeNode::new` (+ `add_parent` at allocation). -/
def TreeNode.mkNew (filename : String) (parent : Option Nat) : TreeNode :=
  ⟨[], filename, parent⟩

/-- Mirror of `TreeNode::is_leaf`: no children. -/
def TreeNode.is_leaf (n : TreeNode) : Bool := n.children.isEmpty

/-- Mirror of `TreeNode::is_valid`: nonempty filename. -/
def TreeNode.is_valid (n : TreeNode) : Bool := decide (n.filename ≠ "")

/-- Mirror of `TreeNode::add_child`: refuse when the component is present,
otherwise record the child link. -/
def TreeNode.add_child (n : TreeNode) (comp : String) (child : Nat) : TreeNode :=
  if (alookup n.children comp).isSome then n
  else { n with children := n.children ++ [(comp, child)] }

/-- Model of `dirtree::Tree` (the `repo_root` field is the ambient repository
and is not part of the pure state). -/
structure Tree where
  nodes : List TreeNode
  size : Nat
  next_frees : List Nat
deriving DecidableEq, Repr

/-- Mirror of `Tree::new`: a single root node named `.`. -/
def Tree.mkNew : Tree := ⟨[TreeNode.mkNew "." none], 1, []⟩

/-- Node at an index (out-of-range reads yield an inert dummy; Rust would
panic, which reachable states never do). -/
def nodeAt (nodes : List TreeNode) (i : Nat) : TreeNode :=
  nodes.getD i ⟨[], "", none⟩

/-- Replace the node at an index by a function of its current value
(out of range: no-op, matching `List.set`). -/
def modifyNode (nodes : List TreeNode) (i : Nat) (f : TreeNode → TreeNode) : List TreeNode :=
  nodes.set i (f (nodeAt nodes i))

/-- Ordered insertion into the ascending free pool (push onto the min-heap). -/
def insertSorted (x : Nat) : List Nat → List Nat
  | [] => [x]
  | y :: t => if x ≤ y then x :: y :: t else y :: insertSorted x t

/-- Component walk of `Tree::add_path` (the `for comp in path.components()`
loop).  Returns the mutated tree, the final `idx`, the `added` flag, and
whether the loop ran to completion (`false` models the early `return false`
on hitting an existing leaf, which keeps mutations already made).  The walk
reproduces the source faithfully, including `idx = self.size` after an
allocation — also when the node was placed into a popped free slot `s` with
`s ≠ self.size`. -/
def addWalk : List String → Tree → Nat → Bool → Tree × Nat × Bool × Bool
  | [], t, idx, added => (t, idx, added, true)
  | comp :: rest, t, idx, added =>
    match alookup (nodeAt t.nodes idx).children comp with
    | some i =>
      if (nodeAt t.nodes i).is_leaf then (t, i, added, false)
      else addWalk rest t i added
    | none =>
      match t.next_frees with
      | [] =>
        let nodes1 := t.nodes ++ [TreeNode.mkNew comp (some idx)]
        let nodes2 := modifyNode nodes1 idx (fun n => n.add_child comp t.size)
        addWalk rest ⟨nodes2, t.size + 1, []⟩ t.size true
      | s :: restFrees =>
        let nodes1 := t.nodes.set s (TreeNode.mkNew comp (some idx))
        let nodes2 := modifyNode nodes1 idx (fun n => n.add_child comp s)
        addWalk rest ⟨nodes2, t.size + 1, restFrees⟩ t.size true

/-- Push a batch of freed indices onto the free pool. -/
def pushFrees (frees : List Nat) (js : List Nat) : List Nat :=
  js.foldl (fun fs j => insertSorted j fs) frees

/-- Clear the filename of every node in the index batch
(`self.nodes[child].filename.clear()`). -/
def clearNames (nodes : List TreeNode) (js : List Nat) : List TreeNode :=
  js.foldl (fun ns j => modifyNode ns j fun n => { n with filename := "" }) nodes

/-- Eviction at the end of `Tree::add_path`: push every direct child of the
final node onto the free pool, clear its name, then empty the child map and
shrink `size` by the number of direct children. -/
def evictAt (t : Tree) (idx : Nat) : Tree :=
  let toClear := (nodeAt t.nodes idx).children.map Prod.snd
  let frees := pushFrees t.next_frees toClear
  let nodes1 := clearNames t.nodes toClear
  let childCount := (nodeAt nodes1 idx).children.length
  let nodes2 := modifyNode nodes1 idx fun n => { n with children := [] }
  ⟨nodes2, t.size - childCount, frees⟩

/-- Model of `Tree::add_path` over the repo-relative components of the path
(`CurDir` components already filtered out, as the loop does).  `onDisk`
stands for the `path.exists()` and repository-root checks; an empty
component list is the case where the canonicalized path is the repository
root itself. -/
def add_path (t : Tree) (comps : List String) (onDisk : Bool) : Tree × Bool :=
  if !onDisk then (t, false)
  else if t.size = 0 then (t, false)
  else if comps.isEmpty then ({ t with size := 0 }, true)
  else
    match addWalk comps t 0 false with
    | (t1, idx, added, true) => (evictAt t1 idx, added)
    | (t1, _, _, false) => (t1, false)

/-- Parent-link walk of `Tree::relative_path`, with fuel (the Rust loop
terminates because reachable parent chains are acyclic).  A cleared (empty)
filename contributes no path component, as with `PathBuf` joins. -/
def relpathGo : Nat → List TreeNode → TreeNode → List String → List String
  | 0, _, _, acc => acc
  | f + 1, nodes, curr, acc =>
    match curr.parent with
    | none => acc
    | some p =>
      if p = 0 then acc
      else
        relpathGo f nodes (nodeAt nodes p)
          (if (nodeAt nodes p).filename = "" then acc else (nodeAt nodes p).filename :: acc)

/-- Model of `Tree::relative_path`: the component list of the path from the
root (excluded) down to the node. -/
def relative_path (nodes : List TreeNode) (n : TreeNode) : List String :=
  relpathGo nodes.length nodes n (if n.filename = "" then [] else [n.filename])

/-- Model of `Tree::leaves`: relative paths of every valid leaf node, in
arena order. -/
def leaves (t : Tree) : List (List String) :=
  (t.nodes.filter fun n => n.is_leaf && n.is_valid).map (relative_path t.nodes)

/-! ## Repository store (the `.gyat` directory) -/

/-- Insert-or-replace on an association list (`HashMap::insert`). -/
def ainsert {α β : Type} [DecidableEq α] (l : List (α × β)) (k : α) (v : β) : List (α × β) :=
  aerase l k ++ [(k, v)]

/-- Join of a relative path and a further component, as `PathBuf::join` on
`/`-joined component paths. -/
def joinPath (p n : String) : String :=
  if p = "" then n else p ++ "/" ++ n

/-- Mirror of `fs::ChangeType`. -/
inductive ChangeType where
  | New
  | Mod
  | Del
deriving DecidableEq, Repr

/-- Staging-index entry (`fs::IndexEntry` / one line of `.gyat/index`).
The permission flag is the byte written: 48 is the character `0` (readonly),
49 the character `1` (writable). -/
structure IndexEntry where
  perm : Nat
  hash : List Nat
  path : String
  change : ChangeType
deriving DecidableEq, Repr

/-- Entry of a stored tree object after parsing: kind, child hash (bytes),
component name.  Mirrors `objects::FileObject`. -/
abbrev TreeEntryV := FType × List Nat × String

/-- Parsed commit record: the `Parent:` line (kept as the raw string, `0`
meaning no parent) and the `Tree:` root hash.  Hex-string/byte round trips
through `hash::to_string` and `hash::from_string` are modeled away, so the
tree hash is carried as bytes.  Mirrors `objects::CommitObject`. -/
structure CommitRec where
  parent : String
  tree : List Nat
deriving DecidableEq, Repr

/-- File in the working directory: repo-relative path, content bytes, and
the readonly permission bit.  Paths use `/`-joined components. -/
structure WorkFile where
  path : String
  content : List Nat
  readonly : Bool
deriving DecidableEq, Repr

/-- State of a repository: the `.gyat` stores (`HEAD`, `commits/`, `dirs/`,
`files/`, `index`) plus the working directory.  Object stores are keyed by
hash: commits by the hex string (as in `HEAD` and on the command line),
trees and blobs by the hash bytes (the hex filename is a bijective image). -/
structure GyatStore where
  head : String
  commits : List (String × CommitRec)
  dirs : List (List Nat × List TreeEntryV)
  files : List (List Nat × List Nat)
  index : List IndexEntry
  workdir : List WorkFile
deriving DecidableEq, Repr

/-- Model of `objects::read_tree_content`: fails when the tree object is
absent (stored entries are structurally well formed, so the kind-parse
failure of the Rust code has no counterpart). -/
def read_tree_content (dirs : List (List Nat × List TreeEntryV)) (h : List Nat) :
    Except String (List TreeEntryV) :=
  match alookup dirs h with
  | none => .error "Tree hash not stored"
  | some entries => .ok entries

/-- Model of `objects::read_commit_content` restricted to the fields the
code consumes. -/
def read_commit_content (commits : List (String × CommitRec)) (h : String) :
    Except String CommitRec :=
  match alookup commits h with
  | none => .error "Commit hash not exist"
  | some c => .ok c

/-- Fuel bound for the flattening stack loop; generous enough for every
acyclic store (the Rust loop would not terminate on a cyclic one). -/
def flattenFuel (dirs : List (List Nat × List TreeEntryV)) : Nat :=
  ((dirs.map fun d => d.2.length).sum + dirs.length + 2) ^ (dirs.length + 2)

/-- Stack loop of `objects::get_blobs_from_root`.  The Rust stack is a `Vec`
popped from the back; here the head of the list is the top, so a batch of
children is pushed reversed.  Blob entries are inserted into the result map
under their accumulated relative path; tree entries are expanded. -/
def flattenGo (dirs : List (List Nat × List TreeEntryV)) :
    Nat → List (FType × String × List Nat) → List (String × List Nat) →
    Except String (List (String × List Nat))
  | 0, _, _ => .error "flatten fuel exhausted"
  | _ + 1, [], acc => .ok acc
  | f + 1, (k, p, h) :: rest, acc =>
    match k with
    | .blob => flattenGo dirs f rest (ainsert acc p h)
    | .tree =>
      match read_tree_content dirs h with
      | .error e => .error e
      | .ok entries =>
        flattenGo dirs f
          (((entries.map fun e => (e.1, joinPath p e.2.2, e.2.1)).reverse) ++ rest) acc

/-- Model of `objects::get_blobs_from_root`: the path-to-blob-hash mapping
of all leaves under a root tree. -/
def get_blobs_from_root (dirs : List (List Nat × List TreeEntryV)) (root : List Nat) :
    Except String (List (String × List Nat)) :=
  match read_tree_content dirs root with
  | .error e => .error e
  | .ok entries =>
    flattenGo dirs (flattenFuel dirs) ((entries.map fun e => (e.1, e.2.2, e.2.1)).reverse) []

/-- Model of `fs::get_root_tree_hash`: resolve a commit (the given one, or
`HEAD` when none) to its root tree hash; an empty hash means no commit. -/
def get_root_tree_hash (head : String) (commits : List (String × CommitRec))
    (commit_hash : Option String) : Except String (Option (List Nat)) :=
  let ch := match commit_hash with
    | some h => h
    | none => head
  if ch = "" then .ok none
  else
    match alookup commits ch with
    | none => .error "commit file missing"
    | some cr => .ok (some cr.tree)

/-! ## Change detection (src/cli/observe.rs) -/

/-- Mirror of `observe::ObservedContent`. -/
structure ObservedContent where
  perm : Nat
  hash : List Nat
  path : String
deriving DecidableEq, Repr

/-- Model of `observe::observe_single_path` on a working-directory file:
permission byte and content digest. -/
def observe_single_path (f : WorkFile) : ObservedContent :=
  ⟨if f.readonly then 48 else 49, digest_file f.content, f.path⟩

/-- First loop of `observe::write_changes`: classify each observed file as
New (absent from the previous commit) or Mod (present, digest differs),
dropping unchanged files, while removing every matched path from the
previous mapping.  Returns the entries written and the remaining previous
mapping. -/
def writeChangesGo :
    List ObservedContent → List (String × List Nat) →
    List IndexEntry × List (String × List Nat)
  | [], prev => ([], prev)
  | oc :: rest, prev =>
    match alookup prev oc.path with
    | none =>
      let r := writeChangesGo rest prev
      (⟨oc.perm, oc.hash, oc.path, .New⟩ :: r.1, r.2)
    | some ph =>
      let r := writeChangesGo rest (aerase prev oc.path)
      if oc.hash = ph then r
      else (⟨oc.perm, oc.hash, oc.path, .Mod⟩ :: r.1, r.2)

/-- Model of `observe::write_changes`: the classification loop followed by a
Del entry — with the permission byte hard-coded to 49 — for every path
of the previous commit that was not observed. -/
def write_changes (observe_list : List ObservedContent) (prev : List (String × List Nat)) :
    List IndexEntry :=
  let r := writeChangesGo observe_list prev
  r.1 ++ r.2.map fun kv => ⟨49, kv.2, kv.1, .Del⟩

/-- Index computed by one observe run from the observed files and the
previous commit mapping (when one exists; otherwise everything is New). -/
def computeIndex (wd : List WorkFile) (prev : Option (List (String × List Nat))) :
    List IndexEntry :=
  let ol := wd.map observe_single_path
  match prev with
  | some m => write_changes ol m
  | none => ol.map fun oc => ⟨oc.perm, oc.hash, oc.path, .New⟩

/-- Previous-commit mapping used by `observe::observe`: flatten the `HEAD`
commit root; none when there is no commit yet. -/
def observePrev (st : GyatStore) : Except String (Option (List (String × List Nat))) :=
  match get_root_tree_hash st.head st.commits none with
  | .error e => .error e
  | .ok none => .ok none
  | .ok (some root) => (get_blobs_from_root st.dirs root).map some

/-- Model of `observe::observe`.  `inScope` is the restriction to the paths
given on the command line (the traversal for the observed files, the
`starts_with` filter for the previous mapping); `ignored` is the
`.gyatignore` matcher, applied to observed files only.  The staging index is
fully rewritten; nothing else changes. -/
def observe (st : GyatStore) (inScope ignored : String → Bool) : Except String GyatStore :=
  match observePrev st with
  | .error e => .error e
  | .ok prevOpt =>
    .ok { st with
          index := computeIndex
            (st.workdir.filter fun f => inScope f.path && !ignored f.path)
            (prevOpt.map fun bl => bl.filter fun kv => inScope kv.1) }

/-! ## Checkout (src/cli/fallback.rs) -/

/-- Model of `fallback::get_blobs_from_head`. -/
def get_blobs_from_head (st : GyatStore) : Except String (List (String × List Nat)) :=
  match get_root_tree_hash st.head st.commits none with
  | .error e => .error e
  | .ok none => .error "There is no previous commit"
  | .ok (some root) => get_blobs_from_root st.dirs root

/-- Model of `fallback::get_blobs_from_commit`. -/
def get_blobs_from_commit (st : GyatStore) (commit_hash : String) : Except String (List (String × List Nat)) :=
  match get_root_tree_hash st.head st.commits (some commit_hash) with
  | .error e => .error e
  | .ok none => .error "There is no such commit"
  | .ok (some root) => get_blobs_from_root st.dirs root

/-- Outcome of `fallback::fallback`: either the silent early `return Ok(())`
that swallows an error before anything is touched, or the delta that the
remaining phases (`process_change`, `observe`, `track`) go on to apply. -/
inductive FallbackOutcome where
  | silent
  | proceed (changes : Changes)
deriving DecidableEq, Repr

/-- Model of `fallback::fallback` up to the point where the working
directory is first touched: any error from either flatten is swallowed into
a silent no-op success; otherwise the checkout delta is computed and
applied. -/
def fallback (st : GyatStore) (commit_hash : String) : FallbackOutcome :=
  match get_blobs_from_head st with
  | .error _ => .silent
  | .ok head_blobs =>
    match get_blobs_from_commit st commit_hash with
    | .error _ => .silent
    | .ok commit_blobs => .proceed (compare_trees head_blobs commit_blobs)

/-! ## Commit creation (src/cli/track.rs) -/

/-- Component list of a repo-relative path string. -/
def splitPath (p : String) : List String := p.splitOn "/"

/-- Joined path string of a component list. -/
def joinComps (cs : List String) : String := String.intercalate "/" cs

/-- Existence check against the working directory, standing for the
`path.exists()` probe: the path is a tracked file or an ancestor directory
of one. -/
def pathExistsWd (wd : List WorkFile) (p : String) : Bool :=
  wd.any fun f => f.path = p || (p ++ "/").isPrefixOf f.path

/-- Hex string of a hash, mirroring `hash::to_string`. -/
def hexStr (h : List Nat) : String :=
  String.mk ((hexBytes h).map Char.ofNat)

/-- Debug formatting of a change kind, as written into index and commit
records. -/
def changeStr : ChangeType → String
  | .New => "New"
  | .Mod => "Mod"
  | .Del => "Del"

/-- Task of the serialization walk of `Tree::to_object_file_recursive`:
either one node, or the remaining children of a node. -/
inductive SerTask where
  | node (idx : Nat)
  | kids (cs : List (String × Nat))

/-- Fuel bound for the serialization walk, generous for every tree the code
can build. -/
def serFuel (t : Tree) : Nat :=
  ((t.nodes.map fun n => n.children.length + 2).sum + 2) ^ (t.nodes.length + 2)

/-- Recursive walk of `Tree::to_object_file_recursive`, threading the blob
and tree stores (writes are skipped when an object with that hash already
exists).  A leaf is a tracked file: its content is read from the working
directory, hashed with `digest_file` and stored compressed; an internal node
serializes its children in order, hashes the encoded lines and stores the
tree object.  Returns the hash of the serialized object, the child entries
produced (for a kids task) and the two updated stores. -/
def toObjectGo (wd : List WorkFile) (nodes : List TreeNode) :
    Nat → SerTask → List (List Nat × List Nat) → List (List Nat × List TreeEntryV) →
    Except String (List Nat × List TreeEntryV × List (List Nat × List Nat) × List (List Nat × List TreeEntryV))
  | 0, _, _, _ => .error "serialization fuel exhausted"
  | f + 1, .node idx, files, dirs =>
    let n := nodeAt nodes idx
    if n.is_leaf then
      match alookup (wd.map fun w => (w.path, w.content)) (joinComps (relative_path nodes n)) with
      | none => .error "source file missing"
      | some content =>
        let h := digest_file content
        let files2 := if (alookup files h).isSome then files
          else files ++ [(h, format_blob_content content)]
        .ok (h, [], files2, dirs)
    else
      match toObjectGo wd nodes f (.kids n.children) files dirs with
      | .error e => .error e
      | .ok (_, entries, files2, dirs2) =>
        let th := nodeHash entries
        let dirs3 := if (alookup dirs2 th).isSome then dirs2 else dirs2 ++ [(th, entries)]
        .ok (th, entries, files2, dirs3)
  | _ + 1, .kids [], files, dirs => .ok ([], [], files, dirs)
  | f + 1, .kids ((name, j) :: rest), files, dirs =>
    match toObjectGo wd nodes f (.node j) files dirs with
    | .error e => .error e
    | .ok (h, _, files2, dirs2) =>
      let kind := if (nodeAt nodes j).is_leaf then FType.blob else FType.tree
      match toObjectGo wd nodes f (.kids rest) files2 dirs2 with
      | .error e => .error e
      | .ok (_, entries, files3, dirs3) => .ok ([], (kind, h, name) :: entries, files3, dirs3)

/-- Model of `Tree::to_object_file`: serialize from the root node. -/
def to_object_file (t : Tree) (wd : List WorkFile)
    (files : List (List Nat × List Nat)) (dirs : List (List Nat × List TreeEntryV)) :
    Except String (List Nat × List (List Nat × List Nat) × List (List Nat × List TreeEntryV)) :=
  match toObjectGo wd t.nodes (serFuel t) (.node 0) files dirs with
  | .error e => .error e
  | .ok (h, _, fs, ds) => .ok (h, fs, ds)

/-- Entry loop of `track::track` when a parent commit exists: New and Mod
paths are added to the directory tree, Mod and Del paths are removed from
the previous blob mapping. -/
def trackFold (wd : List WorkFile) :
    List IndexEntry → Tree → List (String × List Nat) → Tree × List (String × List Nat)
  | [], t, prev => (t, prev)
  | e :: rest, t, prev =>
    match e.change with
    | .New => trackFold wd rest (add_path t (splitPath e.path) (pathExistsWd wd e.path)).1 prev
    | .Mod => trackFold wd rest (add_path t (splitPath e.path) (pathExistsWd wd e.path)).1 (aerase prev e.path)
    | .Del => trackFold wd rest t (aerase prev e.path)

/-- Directory tree assembled by `track::track` from the staging index and,
when a parent commit exists, the parent blob mapping (whose untouched paths
are added back as implicit leaves). -/
def trackBuildTree (st : GyatStore) (observed_list : List IndexEntry)
    (parent_commit : Option String) : Except String Tree :=
  match parent_commit with
  | some pc =>
    match read_commit_content st.commits pc with
    | .error e => .error e
    | .ok cr =>
      match get_blobs_from_root st.dirs cr.tree with
      | .error e => .error e
      | .ok prev =>
        let r := trackFold st.workdir observed_list Tree.mkNew prev
        .ok (r.2.foldl (fun t kv => (add_path t (splitPath kv.1) (pathExistsWd st.workdir kv.1)).1) r.1)
  | none =>
    .ok (observed_list.foldl
      (fun t e => (add_path t (splitPath e.path) (pathExistsWd st.workdir e.path)).1) Tree.mkNew)

/-- Model of `track::track`.  With an empty staging index it prints and
returns without touching anything.  Otherwise it serializes the assembled
tree into the object stores, writes a commit record whose hash is the SHA-1
of the formatted commit text, points `HEAD` at it and clears the index.
The timestamp is an input (`Local::now()` in Rust). -/
def track (st : GyatStore) (message : Option String) (track_all : Bool)
    (ignored : String → Bool) (date : String) : Except String GyatStore :=
  match (if track_all then observe st (fun _ => true) ignored else .ok st) with
  | .error e => .error e
  | .ok st1 =>
    let observed_list := st1.index
    if observed_list.isEmpty then .ok st1
    else
      let parent_commit : Option String := if st1.head = "" then none else some st1.head
      match trackBuildTree st1 observed_list parent_commit with
      | .error e => .error e
      | .ok dtree =>
        match to_object_file dtree st1.workdir st1.files st1.dirs with
        | .error e => .error e
        | .ok (root_hash, files2, dirs2) =>
          let commit_content := "Parent: " ++ parent_commit.getD "0"
            ++ "\nTree: " ++ hexStr root_hash
            ++ "\nMessage: " ++ message.getD ""
            ++ "\nDate: " ++ date ++ "\nChanges:\n"
            ++ String.join (observed_list.map fun e => changeStr e.change ++ "\t" ++ e.path ++ "\n")
          let commit_hash := hexStr (sha1 (strBytes commit_content))
          .ok { st1 with
                head := commit_hash
                commits := ainsert st1.commits commit_hash ⟨parent_commit.getD "0", root_hash⟩
                dirs := dirs2
                files := files2
                index := [] }

/-! ## Lemmas about association-list lookup -/

theorem alookup_eq_none_iff {α β : Type} [DecidableEq α] (l : List (α × β)) (k : α) :
    alookup l k = none ↔ k ∉ l.map Prod.fst := by
  induction l with
  | nil => simp [alookup]
  | cons hd tl ih =>
    obtain ⟨a, b⟩ := hd
    simp only [alookup, List.map_cons, List.mem_cons]
    by_cases h : a = k
    · subst h
      simp
    · rw [if_neg h, ih]
      constructor
      · rintro hn (rfl | hm)
        · exact h rfl
        · exact hn hm
      · exact fun hn hm => hn (Or.inr hm)

theorem mem_of_alookup_eq_some {α β : Type} [DecidableEq α] {l : List (α × β)} {k : α} {v : β}
    (h : alookup l k = some v) : (k, v) ∈ l := by
  induction l with
  | nil => simp [alookup] at h
  | cons hd tl ih =>
    obtain ⟨a, b⟩ := hd
    by_cases hak : a = k
    · subst hak
      simp [alookup] at h
      simp [h]
    · simp [alookup, hak] at h
      exact List.mem_cons_of_mem _ (ih h)

theorem alookup_eq_some_of_nodup {α β : Type} [DecidableEq α] {l : List (α × β)} {k : α} {v : β}
    (nd : (l.map Prod.fst).Nodup) (h : (k, v) ∈ l) : alookup l k = some v := by
  induction l with
  | nil => simp at h
  | cons hd tl ih =>
    obtain ⟨a, b⟩ := hd
    simp only [List.map_cons, List.nodup_cons] at nd
    rcases List.mem_cons.1 h with h1 | h1
    · rw [Prod.mk.injEq] at h1
      obtain ⟨rfl, rfl⟩ := h1
      simp [alookup]
    · have hak : a ≠ k := by
        rintro rfl
        exact nd.1 (List.mem_map.2 ⟨(a, v), h1, rfl⟩)
      simp [alookup, hak, ih nd.2 h1]

theorem alookup_isSome_iff {α β : Type} [DecidableEq α] (l : List (α × β)) (k : α) :
    (alookup l k).isSome ↔ k ∈ l.map Prod.fst := by
  rcases h : alookup l k with _ | v
  · simpa [h] using (alookup_eq_none_iff l k).1 h
  · simp only [h, Option.isSome_some, true_iff]
    exact List.mem_map.2 ⟨(k, v), mem_of_alookup_eq_some h, rfl⟩

/-! ## Lemmas about compare_trees membership -/

theorem mem_to_add_iff {head target : List (String × List Nat)} {p : String} {h : List Nat} :
    (p, h) ∈ (compare_trees head target).to_add ↔
      (p, h) ∈ target ∧ alookup head p = none := by
  simp [compare_trees, List.mem_filter, Option.isNone_iff_eq_none]

theorem mem_to_modify_iff {head target : List (String × List Nat)} {p : String} {h : List Nat} :
    (p, h) ∈ (compare_trees head target).to_modify ↔
      (p, h) ∈ target ∧ ∃ h1, alookup head p = some h1 ∧ h1 ≠ h := by
  simp only [compare_trees, List.mem_filter]
  rcases hl : alookup head p with _ | h1 <;> simp [hl]

theorem mem_to_delete_iff {head target : List (String × List Nat)} {p : String} :
    p ∈ (compare_trees head target).to_delete ↔
      ∃ h, (p, h) ∈ head ∧ alookup target p = none := by
  simp only [compare_trees, List.mem_map, List.mem_filter, Option.isNone_iff_eq_none]
  constructor
  · rintro ⟨⟨a, b⟩, ⟨hm, hn⟩, rfl⟩
    exact ⟨b, hm, hn⟩
  · rintro ⟨b, hm, hn⟩
    exact ⟨(p, b), ⟨hm, hn⟩, rfl⟩

/-- C4: for all pairs of blob mappings (head, target), the checkout delta of
`compare_trees` satisfies: to_add is exactly the paths of target absent from
head, to_modify exactly the paths present in both with differing hash,
to_delete exactly the paths of head absent from target; the three sets are
pairwise disjoint in path; and to_add, to_modify and the unchanged
head-and-target paths together cover target. -/
theorem claim_C4_diff_completeness (head target : List (String × List Nat))
    (hh : (head.map Prod.fst).Nodup) (ht : (target.map Prod.fst).Nodup) :
    (∀ p, (∃ h, (p, h) ∈ (compare_trees head target).to_add) ↔
        (p ∈ target.map Prod.fst ∧ p ∉ head.map Prod.fst)) ∧
    (∀ p, (∃ h, (p, h) ∈ (compare_trees head target).to_modify) ↔
        (∃ h1 h2, (p, h1) ∈ head ∧ (p, h2) ∈ target ∧ h1 ≠ h2)) ∧
    (∀ p, (p ∈ (compare_trees head target).to_delete) ↔
        (p ∈ head.map Prod.fst ∧ p ∉ target.map Prod.fst)) ∧
    (∀ p, ¬ ((∃ h, (p, h) ∈ (compare_trees head target).to_add) ∧
        (∃ h, (p, h) ∈ (compare_trees head target).to_modify))) ∧
    (∀ p, ¬ ((∃ h, (p, h) ∈ (compare_trees head target).to_add) ∧
        p ∈ (compare_trees head target).to_delete)) ∧
    (∀ p, ¬ ((∃ h, (p, h) ∈ (compare_trees head target).to_modify) ∧
        p ∈ (compare_trees head target).to_delete)) ∧
    (∀ p, p ∈ target.map Prod.fst →
      ((∃ h, (p, h) ∈ (compare_trees head target).to_add) ∨
       (∃ h, (p, h) ∈ (compare_trees head target).to_modify) ∨
       (p ∈ head.map Prod.fst ∧ alookup head p = alookup target p))) := by
  refine ⟨?_, ?_, ?_, ?_, ?_, ?_, ?_⟩
  · intro p
    constructor
    · rintro ⟨h, hm⟩
      obtain ⟨hmt, hn⟩ := mem_to_add_iff.1 hm
      exact ⟨List.mem_map.2 ⟨(p, h), hmt, rfl⟩, (alookup_eq_none_iff head p).1 hn⟩
    · rintro ⟨hmt, hn⟩
      obtain ⟨⟨q, h⟩, hmem, rfl⟩ := List.mem_map.1 hmt
      exact ⟨h, mem_to_add_iff.2 ⟨hmem, (alookup_eq_none_iff head q).2 hn⟩⟩
  · intro p
    constructor
    · rintro ⟨h, hm⟩
      obtain ⟨hmt, h1, hl, hne⟩ := mem_to_modify_iff.1 hm
      exact ⟨h1, h, mem_of_alookup_eq_some hl, hmt, hne⟩
    · rintro ⟨h1, h2, hmh, hmt, hne⟩
      exact ⟨h2, mem_to_modify_iff.2 ⟨hmt, h1, alookup_eq_some_of_nodup hh hmh, hne⟩⟩
  · intro p
    constructor
    · intro hm
      obtain ⟨h, hmh, hn⟩ := mem_to_delete_iff.1 hm
      exact ⟨List.mem_map.2 ⟨(p, h), hmh, rfl⟩, (alookup_eq_none_iff target p).1 hn⟩
    · rintro ⟨hmh, hn⟩
      obtain ⟨⟨q, h⟩, hmem, rfl⟩ := List.mem_map.1 hmh
      exact mem_to_delete_iff.2 ⟨h, hmem, (alookup_eq_none_iff target q).2 hn⟩
  · rintro p ⟨⟨h, ha⟩, ⟨h2, hm⟩⟩
    obtain ⟨-, hn⟩ := mem_to_add_iff.1 ha
    obtain ⟨-, h1, hl, -⟩ := mem_to_modify_iff.1 hm
    simp [hn] at hl
  · rintro p ⟨⟨h, ha⟩, hd⟩
    obtain ⟨hmt, -⟩ := mem_to_add_iff.1 ha
    obtain ⟨h2, -, hn⟩ := mem_to_delete_iff.1 hd
    have := (alookup_eq_none_iff target p).1 hn
    exact this (List.mem_map.2 ⟨(p, h), hmt, rfl⟩)
  · rintro p ⟨⟨h, hm⟩, hd⟩
    obtain ⟨hmt, -⟩ := mem_to_modify_iff.1 hm
    obtain ⟨h2, -, hn⟩ := mem_to_delete_iff.1 hd
    have := (alookup_eq_none_iff target p).1 hn
    exact this (List.mem_map.2 ⟨(p, h), hmt, rfl⟩)
  · intro p hp
    obtain ⟨⟨q, h2⟩, hmem, rfl⟩ := List.mem_map.1 hp
    dsimp only
    rcases hl : alookup head q with _ | h1
    · exact Or.inl ⟨h2, mem_to_add_iff.2 ⟨hmem, hl⟩⟩
    · by_cases he : h1 = h2
      · refine Or.inr (Or.inr ⟨(alookup_isSome_iff head q).1 (by simp [hl]), ?_⟩)
        have h2l : alookup target q = some h2 := alookup_eq_some_of_nodup ht hmem
        rw [h2l, he]
      · exact Or.inr (Or.inl ⟨h2, mem_to_modify_iff.2 ⟨hmem, h1, hl, he⟩⟩)

/-- Witness for C4 at a concrete pair of mappings. -/
theorem claim_C4_witness :
    ((([("a", [1]), ("b", [2])] : List (String × List Nat)).map Prod.fst).Nodup ∧
     (([("b", [3]), ("c", [4])] : List (String × List Nat)).map Prod.fst).Nodup) ∧
    (∃ h, ("c", h) ∈ (compare_trees [("a", [1]), ("b", [2])] [("b", [3]), ("c", [4])]).to_add) := by
  refine ⟨⟨by decide, by decide⟩, ?_⟩
  exact ((claim_C4_diff_completeness [("a", [1]), ("b", [2])] [("b", [3]), ("c", [4])]
    (by decide) (by decide)).1 "c").2 ⟨by decide, by decide⟩

/-! ## Blob round trip and content digest -/

/-- C1: the blob round trip loses data.  Writing the two-byte content
`[1, 0]` as a blob and reading it back yields `[1]`: the write pads the
content to a full 1024-byte chunk with zeros and the read trims every
trailing zero, so a content ending in a zero byte is not recovered.  This
exhibits the failing input for the round-trip property
`read_blob (write_blob file) = original content`. -/
theorem claim_C1_roundtrip_fails_on_trailing_zero :
    read_blob (format_blob_content [1, 0]) = [1] ∧
    read_blob (format_blob_content [1, 0]) ≠ [1, 0] := by
  constructor
  · decide
  · decide

/-- C5: the digest of `hash::digest_file` is not computed over the raw
content bytes.  The byte stream fed to SHA-1 is the zero-padded chunk
stream, which for the raw content `[1]` is not `[1]`; consequently the two
distinct contents `[1]` and `[1, 0]` are padded to the same 1024-byte chunk
and receive the same hash, so two files with different raw byte content do
not get the hashes of their respective raw bytes. -/
theorem claim_C5_digest_not_over_raw_bytes :
    digest_file [1] = digest_file [1, 0] ∧
    padChunks1024 [1] ≠ [1] ∧
    ([1] : List Nat) ≠ [1, 0] := by
  refine ⟨congrArg sha1 (show padChunks1024 [1] = padChunks1024 [1, 0] by decide), ?_, ?_⟩
  · decide
  · decide

/-! ## Tree-hash determinism -/

/-- C2 counterexample: the tree hash is not a function of the set of child
triples.  Two directory nodes with the same child triples in different
orders (the Rust serializer iterates a `HashMap`, whose order is arbitrary)
serialize to different content and different hashes. -/
theorem claim_C2_counterexample :
    (childTriples 1 [("a", DTree.leaf []), ("b", DTree.leaf [])]).Perm
      (childTriples 1 [("b", DTree.leaf []), ("a", DTree.leaf [])]) ∧
    serializeNode 1 [("a", DTree.leaf []), ("b", DTree.leaf [])] ≠
      serializeNode 1 [("b", DTree.leaf []), ("a", DTree.leaf [])] := by
  constructor
  · decide
  · decide

/-- C2 (amended): the hash of a tree object is a pure function of the
ordered sequence of child (kind, hash, name) triples assembled by the
serializer: any two nodes whose serialization visits equal triple sequences
produce the same tree hash, whatever the subtrees behind those triples
are. -/
theorem claim_C2_tree_hash_of_child_sequence (f : Nat) (cs1 cs2 : List (String × DTree))
    (h : childTriples f cs1 = childTriples f cs2) :
    serializeNode f cs1 = serializeNode f cs2 :=
  congrArg nodeHash h

/-- Witness for C2 at two concrete distinct trees whose child-triple
sequences coincide (their leaf contents `[1]` and `[1, 0]` collide under the
chunk-padded digest). -/
theorem claim_C2_witness :
    childTriples 1 [("f", DTree.leaf [1])] = childTriples 1 [("f", DTree.leaf [1, 0])] ∧
    serializeNode 1 [("f", DTree.leaf [1])] = serializeNode 1 [("f", DTree.leaf [1, 0])] := by
  have ht : childTriples 1 [("f", DTree.leaf [1])] = childTriples 1 [("f", DTree.leaf [1, 0])] := by
    show [(FType.blob, digest_file [1], "f")] = [(FType.blob, digest_file [1, 0], "f")]
    rw [show digest_file [1] = digest_file [1, 0] from
      congrArg sha1 (show padChunks1024 [1] = padChunks1024 [1, 0] by decide)]
  exact ⟨ht, claim_C2_tree_hash_of_child_sequence 1 _ _ ht⟩

/-! ## Staging-index classification -/

theorem writeChangesGo_fst_mem (ol : List ObservedContent) :
    ∀ (prev : List (String × List Nat)) (e : IndexEntry),
      e ∈ (writeChangesGo ol prev).1 →
      ∃ oc ∈ ol, (e.change = .New ∨ e.change = .Mod) ∧
        e.perm = oc.perm ∧ e.path = oc.path ∧ e.hash = oc.hash := by
  induction ol with
  | nil => intro prev e he; simp [writeChangesGo] at he
  | cons oc rest ih =>
    intro prev e he
    simp only [writeChangesGo] at he
    rcases hl : alookup prev oc.path with _ | ph
    · rw [hl] at he
      dsimp only at he
      rcases List.mem_cons.1 he with rfl | hm
      · exact ⟨oc, List.mem_cons_self .., Or.inl rfl, rfl, rfl, rfl⟩
      · obtain ⟨oc2, hmem, hp⟩ := ih prev e hm
        exact ⟨oc2, List.mem_cons_of_mem _ hmem, hp⟩
    · rw [hl] at he
      dsimp only at he
      by_cases hh : oc.hash = ph
      · rw [if_pos hh] at he
        obtain ⟨oc2, hmem, hp⟩ := ih (aerase prev oc.path) e he
        exact ⟨oc2, List.mem_cons_of_mem _ hmem, hp⟩
      · rw [if_neg hh] at he
        rcases List.mem_cons.1 he with rfl | hm
        · exact ⟨oc, List.mem_cons_self .., Or.inr rfl, rfl, rfl, rfl⟩
        · obtain ⟨oc2, hmem, hp⟩ := ih (aerase prev oc.path) e hm
          exact ⟨oc2, List.mem_cons_of_mem _ hmem, hp⟩

/-- C10: in an observe run against a previous commit, every index entry
classified Del carries permission byte 49 (`1`, writable) regardless of the
permission of the deleted file, while every New or Mod entry carries the
permission byte observed on the working-directory file of that path. -/
theorem claim_C10_del_entries_marked_writable
    (wd : List WorkFile) (m : List (String × List Nat)) (e : IndexEntry)
    (he : e ∈ write_changes (wd.map observe_single_path) m) :
    (e.change = .Del → e.perm = 49) ∧
    (e.change ≠ .Del →
      ∃ f ∈ wd, e.path = f.path ∧ e.perm = (if f.readonly then 48 else 49) ∧
        e.hash = digest_file f.content) := by
  rcases List.mem_append.1 he with h1 | h2
  · obtain ⟨oc, hmem, hkind, hperm, hpath, hhash⟩ :=
      writeChangesGo_fst_mem (wd.map observe_single_path) m e h1
    obtain ⟨f, hf, rfl⟩ := List.mem_map.1 hmem
    constructor
    · intro hdel
      rcases hkind with hk | hk <;> rw [hdel] at hk <;> cases hk
    · intro _
      exact ⟨f, hf, hpath, hperm, hhash⟩
  · obtain ⟨kv, _, rfl⟩ := List.mem_map.1 h2
    exact ⟨fun _ => rfl, fun hne => absurd rfl hne⟩

/-- Witness for C10: a deleted readonly file is still written with
permission byte 49. -/
theorem claim_C10_witness :
    (⟨49, [2], "g", ChangeType.Del⟩ : IndexEntry) ∈
      write_changes ([⟨"f", [1], true⟩].map observe_single_path) [("g", [2])] ∧
    (⟨49, [2], "g", ChangeType.Del⟩ : IndexEntry).perm = 49 := by
  have hm : (⟨49, [2], "g", ChangeType.Del⟩ : IndexEntry) ∈
      write_changes ([⟨"f", [1], true⟩].map observe_single_path) [("g", [2])] := by
    simp [write_changes, writeChangesGo, observe_single_path, alookup]
  exact ⟨hm, (claim_C10_del_entries_marked_writable [⟨"f", [1], true⟩] [("g", [2])] _ hm).1 rfl⟩

/-! ## Observe idempotence -/

theorem observePrev_set_index (st : GyatStore) (x : List IndexEntry) :
    observePrev { st with index := x } = observePrev st := rfl

/-- C3 counterexample: after two observe runs with no working-directory
change in between, the staging index is not empty — it holds the same
entries as after the first run (here a single New entry for the one
untracked file). -/
theorem claim_C3_counterexample :
    ∃ s1 s2 : GyatStore,
      observe ⟨"", [], [], [], [], [⟨"f", [1], false⟩]⟩ (fun _ => true) (fun _ => false) = .ok s1 ∧
      observe s1 (fun _ => true) (fun _ => false) = .ok s2 ∧
      s2.index ≠ [] := by
  refine ⟨_, _, rfl, rfl, ?_⟩
  decide

/-- C3 (amended): observe is idempotent — a second observe run on the state
produced by a first one (the working directory, `HEAD` and object stores
being untouched in between) succeeds and rewrites the staging index with
exactly the same contents, leaving the state unchanged.  The index is empty
after the second run only when it was already empty after the first. -/
theorem claim_C3_observe_idempotent (st : GyatStore) (inScope ignored : String → Bool)
    (st1 : GyatStore) (h : observe st inScope ignored = .ok st1) :
    observe st1 inScope ignored = .ok st1 := by
  unfold observe at h ⊢
  cases hp : observePrev st with
  | error e =>
    rw [hp] at h
    cases h
  | ok prevOpt =>
    rw [hp] at h
    injection h with h1
    subst h1
    rw [observePrev_set_index, hp]

/-- Witness for C3 idempotence at a concrete repository state. -/
theorem claim_C3_witness :
    ∃ s1 : GyatStore,
      observe ⟨"", [], [], [], [], [⟨"f", [1], false⟩]⟩ (fun _ => true) (fun _ => false) = .ok s1 ∧
      observe s1 (fun _ => true) (fun _ => false) = .ok s1 :=
  ⟨_, rfl, claim_C3_observe_idempotent ⟨"", [], [], [], [], [⟨"f", [1], false⟩]⟩
    (fun _ => true) (fun _ => false) _ rfl⟩

/-! ## Arena eviction lemmas -/

theorem mem_insertSorted {x y : Nat} : ∀ {l : List Nat}, x ∈ insertSorted y l ↔ x = y ∨ x ∈ l := by
  intro l
  induction l with
  | nil => simp [insertSorted]
  | cons z t ih =>
    by_cases h : y ≤ z
    · simp [insertSorted, h]
    · simp only [insertSorted, if_neg h, List.mem_cons, ih]
      tauto

theorem mem_pushFrees_of_mem {x : Nat} : ∀ {js fs : List Nat}, x ∈ fs → x ∈ pushFrees fs js := by
  intro js
  induction js with
  | nil => intro fs h; exact h
  | cons j t ih =>
    intro fs h
    exact ih (mem_insertSorted.2 (Or.inr h))

theorem mem_pushFrees_of_mem_batch {x : Nat} :
    ∀ {js fs : List Nat}, x ∈ js → x ∈ pushFrees fs js := by
  intro js
  induction js with
  | nil => intro fs h; cases h
  | cons j t ih =>
    intro fs h
    rcases List.mem_cons.1 h with rfl | hm
    · show x ∈ pushFrees (insertSorted x fs) t
      exact mem_pushFrees_of_mem (mem_insertSorted.2 (Or.inl rfl))
    · exact ih hm

theorem modifyNode_length (ns : List TreeNode) (i : Nat) (f : TreeNode → TreeNode) :
    (modifyNode ns i f).length = ns.length :=
  List.length_set ..

theorem nodeAt_modifyNode_ne {ns : List TreeNode} {i j : Nat} (f : TreeNode → TreeNode)
    (h : i ≠ j) : nodeAt (modifyNode ns i f) j = nodeAt ns j := by
  simp [nodeAt, modifyNode, List.getD_eq_getElem?_getD, List.getElem?_set_ne h]

theorem nodeAt_modifyNode_self {ns : List TreeNode} {i : Nat} (f : TreeNode → TreeNode)
    (h : i < ns.length) : nodeAt (modifyNode ns i f) i = f (nodeAt ns i) := by
  simp [nodeAt, modifyNode, List.getD_eq_getElem?_getD, List.getElem?_set_self h]

theorem clearNames_length : ∀ (js : List Nat) (ns : List TreeNode),
    (clearNames ns js).length = ns.length := by
  intro js
  induction js with
  | nil => intro ns; rfl
  | cons j t ih =>
    intro ns
    show (clearNames (modifyNode ns j _) t).length = _
    rw [ih, modifyNode_length]

theorem clearNames_keeps_cleared : ∀ (js : List Nat) (ns : List TreeNode) (j : Nat),
    (nodeAt ns j).filename = "" → (nodeAt (clearNames ns js) j).filename = "" := by
  intro js
  induction js with
  | nil => intro ns j h; exact h
  | cons i t ih =>
    intro ns j h
    show (nodeAt (clearNames (modifyNode ns i _) t) j).filename = ""
    refine ih _ j ?_
    by_cases hij : i = j
    · subst hij
      by_cases hlt : i < ns.length
      · rw [nodeAt_modifyNode_self _ hlt]
      · simp only [modifyNode]
        rw [List.set_eq_of_length_le (by omega)]
        exact h
    · rw [nodeAt_modifyNode_ne _ hij]
      exact h

theorem clearNames_clears : ∀ (js : List Nat) (ns : List TreeNode) (j : Nat),
    j ∈ js → j < ns.length → (nodeAt (clearNames ns js) j).filename = "" := by
  intro js
  induction js with
  | nil => intro ns j h; cases h
  | cons i t ih =>
    intro ns j hm hlt
    rcases List.mem_cons.1 hm with rfl | hmem
    · show (nodeAt (clearNames (modifyNode ns j _) t) j).filename = ""
      exact clearNames_keeps_cleared t _ j (by rw [nodeAt_modifyNode_self _ hlt])
    · show (nodeAt (clearNames (modifyNode ns i _) t) j).filename = ""
      exact ih _ j hmem (by rw [modifyNode_length]; exact hlt)

/-- C6 counterexample: adding the ancestor path `a` after `a/b/c` evicts
only the direct child `b`.  The grandchild node `c` keeps its slot (index 3
is not in the free pool) and its name, and `leaves` afterwards reports,
besides `a`, the stale path `a/c` for it. -/
theorem claim_C6_counterexample :
    ∃ t1 t2 : Tree,
      add_path Tree.mkNew ["a", "b", "c"] true = (t1, true) ∧
      add_path t1 ["a"] true = (t2, false) ∧
      (nodeAt t2.nodes 3).filename = "c" ∧
      (3 : Nat) ∉ t2.next_frees ∧
      leaves t2 = [["a"], ["a", "c"]] := by
  refine ⟨_, _, rfl, rfl, ?_, ?_, ?_⟩
  · decide
  · decide
  · decide

/-- C6 (amended): a successful `add_path` whose component walk ends at node
`idx` evicts exactly the direct children of that node: the child map of
`idx` is emptied and every direct child slot is pushed onto the free pool
with its name cleared (so it is invalid and no longer counted by `leaves`).
Descendants deeper than one level are not touched. -/
theorem claim_C6_direct_children_evicted (t : Tree) (comps : List String)
    (t1 : Tree) (idx : Nat) (added : Bool)
    (hw : addWalk comps t 0 false = (t1, idx, added, true))
    (hne : comps ≠ []) (hsz : t.size ≠ 0)
    (hidx : idx < t1.nodes.length)
    (hb : ∀ cj ∈ (nodeAt t1.nodes idx).children, cj.2 < t1.nodes.length) :
    (add_path t comps true).1 = evictAt t1 idx ∧
    (nodeAt (evictAt t1 idx).nodes idx).children = [] ∧
    (∀ cj ∈ (nodeAt t1.nodes idx).children,
      cj.2 ∈ (evictAt t1 idx).next_frees ∧
      (nodeAt (evictAt t1 idx).nodes cj.2).filename = "" ∧
      (nodeAt (evictAt t1 idx).nodes cj.2).is_valid = false) := by
  have hnodes : (evictAt t1 idx).nodes =
      modifyNode (clearNames t1.nodes ((nodeAt t1.nodes idx).children.map Prod.snd)) idx
        (fun n => { n with children := [] }) := rfl
  have hfrees : (evictAt t1 idx).next_frees =
      pushFrees t1.next_frees ((nodeAt t1.nodes idx).children.map Prod.snd) := rfl
  have hpath : (add_path t comps true).1 = evictAt t1 idx := by
    unfold add_path
    rw [if_neg (by simp), if_neg hsz, if_neg (by simpa using hne), hw]
  refine ⟨hpath, ?_, ?_⟩
  · rw [hnodes, nodeAt_modifyNode_self _ (by rw [clearNames_length]; exact hidx)]
  · intro cj hcj
    have hlt : cj.2 < t1.nodes.length := hb cj hcj
    have hmem : cj.2 ∈ (nodeAt t1.nodes idx).children.map Prod.snd :=
      List.mem_map.2 ⟨cj, hcj, rfl⟩
    have hfn : (nodeAt (evictAt t1 idx).nodes cj.2).filename = "" := by
      rw [hnodes]
      by_cases hij : idx = cj.2
      · rw [← hij, nodeAt_modifyNode_self _ (by rw [clearNames_length]; exact hidx)]
        exact clearNames_clears _ _ idx (hij ▸ hmem) hidx
      · rw [nodeAt_modifyNode_ne _ hij]
        exact clearNames_clears _ _ cj.2 hmem hlt
    refine ⟨hfrees ▸ mem_pushFrees_of_mem_batch hmem, hfn, ?_⟩
    simp [TreeNode.is_valid, hfn]

/-- Witness for C6 at the concrete tree holding `a/b`: collapsing `a` frees
the slot of its direct child `b` and clears it. -/
theorem claim_C6_witness :
    addWalk ["a"] (add_path Tree.mkNew ["a", "b"] true).1 0 false =
      ((add_path Tree.mkNew ["a", "b"] true).1, 1, false, true) ∧
    (∀ cj ∈ (nodeAt (add_path Tree.mkNew ["a", "b"] true).1.nodes 1).children,
      cj.2 ∈ (evictAt (add_path Tree.mkNew ["a", "b"] true).1 1).next_frees ∧
      (nodeAt (evictAt (add_path Tree.mkNew ["a", "b"] true).1 1).nodes cj.2).filename = "" ∧
      (nodeAt (evictAt (add_path Tree.mkNew ["a", "b"] true).1 1).nodes cj.2).is_valid = false) := by
  refine ⟨by decide, ?_⟩
  exact (claim_C6_direct_children_evicted (add_path Tree.mkNew ["a", "b"] true).1 ["a"]
    (add_path Tree.mkNew ["a", "b"] true).1 1 false (by decide) (by decide) (by decide)
    (by decide) (by decide)).2.2

/-- C7: after `a/b` is added, an unrelated path `c` grows the arena, `a` is
collapsed (freeing slot 2, where `b` lived), and `d/e` is added.  The slot
for `d` is indeed the freed slot 2 — but the walk then continues from
`idx = size = 3`, which is the unrelated node `c`, so the component `e` is
linked as a child of `c` instead of `d`: the walk does not continue from the
newly allocated node.  `leaves` afterwards reports the never-added path
`c/e`. -/
theorem claim_C7_walk_continues_from_wrong_node :
    ∃ t4 : Tree,
      add_path (add_path (add_path (add_path Tree.mkNew
        ["a", "b"] true).1 ["c"] true).1 ["a"] true).1 ["d", "e"] true = (t4, true) ∧
      (nodeAt t4.nodes 2).filename = "d" ∧
      (nodeAt t4.nodes 2).parent = some 0 ∧
      (nodeAt t4.nodes 2).children = [] ∧
      (nodeAt t4.nodes 3).filename = "c" ∧
      (nodeAt t4.nodes 3).children = [("e", 4)] ∧
      (nodeAt t4.nodes 4).filename = "e" ∧
      (nodeAt t4.nodes 4).parent = some 3 ∧
      leaves t4 = [["a"], ["d"], ["c", "e"]] := by
  refine ⟨_, rfl, ?_, ?_, ?_, ?_, ?_, ?_, ?_, ?_⟩
  all_goals decide

/-! ## Checkout error swallowing -/

/-- C8 counterexample: fallback degrades to a silent success in an error
case that is neither of the two stated preconditions.  In this store a
commit exists, `HEAD` points at it and the target names it, but its root
tree object is missing from `dirs/`; flattening fails with a missing-object
error, which fallback swallows into a silent no-op, so the stated "exactly
when" is violated. -/
theorem claim_C8_counterexample :
    fallback ⟨"c1", [("c1", ⟨"0", [1]⟩)], [], [], [], []⟩ "c1" = .silent ∧
    (⟨"c1", [("c1", ⟨"0", [1]⟩)], [], [], [], []⟩ : GyatStore).head ≠ "" ∧
    alookup (⟨"c1", [("c1", ⟨"0", [1]⟩)], [], [], [], []⟩ : GyatStore).commits "c1" =
      some ⟨"0", [1]⟩ := by
  refine ⟨rfl, by decide, rfl⟩

/-- C8 (amended): fallback silently returns success with no effect exactly
when computing either flattened blob mapping fails — in particular when no
commit exists yet, and when the target does not name an existing commit,
but also on any other read failure while flattening either side (such as a
missing or unreadable object); errors in the phases after both flattens
succeed are surfaced. -/
theorem claim_C8_silent_iff_flatten_fails (st : GyatStore) (target : String) :
    (st.head = "" → fallback st target = .silent) ∧
    (target ≠ "" → alookup st.commits target = none → fallback st target = .silent) ∧
    (fallback st target = .silent ↔
      ¬ ∃ hb cb, get_blobs_from_head st = .ok hb ∧
        get_blobs_from_commit st target = .ok cb) := by
  refine ⟨?_, ?_, ?_⟩
  · intro h
    unfold fallback get_blobs_from_head get_root_tree_hash
    rw [h]
    simp
  · intro ht hn
    unfold fallback
    cases hh : get_blobs_from_head st with
    | error e => rfl
    | ok hb =>
      unfold get_blobs_from_commit get_root_tree_hash
      rw [if_neg ht, hn]
  · unfold fallback
    cases hh : get_blobs_from_head st with
    | error e => simp
    | ok hb =>
      cases hc : get_blobs_from_commit st target with
      | error e => simp [hc]
      | ok cb => simp [hc]

/-- Witness for C8 at a concrete empty repository (no commit yet) and at a
concrete nonexistent target. -/
theorem claim_C8_witness :
    fallback ⟨"", [], [], [], [], []⟩ "x" = .silent ∧
    fallback ⟨"c1", [("c1", ⟨"0", [1]⟩)], [], [], [], []⟩ "nope" = .silent := by
  constructor
  · exact (claim_C8_silent_iff_flatten_fails ⟨"", [], [], [], [], []⟩ "x").1 rfl
  · exact (claim_C8_silent_iff_flatten_fails ⟨"c1", [("c1", ⟨"0", [1]⟩)], [], [], [], []⟩
      "nope").2.1 (by decide) rfl

/-! ## Commit with empty staging index -/

/-- C9: when the staging index is empty, track returns success immediately
and the repository state — `HEAD`, the object stores, the index and the
working directory — is returned unchanged; no commit object is written. -/
theorem claim_C9_track_empty_index_noop (st : GyatStore) (message : Option String)
    (ignored : String → Bool) (date : String) (h : st.index = []) :
    track st message false ignored date = .ok st := by
  unfold track
  simp [h]

/-- Witness for C9 at a concrete repository state with an empty index. -/
theorem claim_C9_witness :
    track ⟨"h0", [("h0", ⟨"0", [1]⟩)], [], [], [], [⟨"f", [1], false⟩]⟩ (some "msg") false
      (fun _ => false) "today" = .ok ⟨"h0", [("h0", ⟨"0", [1]⟩)], [], [], [], [⟨"f", [1], false⟩]⟩ :=
  claim_C9_track_empty_index_noop _ (some "msg") (fun _ => false) "today" rfl

end Gyat
